import Mathlib

/-!
Verification of the sharding layer in `pkg/object/sharding.go`.

The Go file implements:
* a shard router (`(*sharded).pick`, FNV-1a 32-bit hash mod shard count),
* a paginated listing driver (package function `ListAll`) that turns a
  backend's page-oriented `List` into one channel of objects,
* a k-way merge (`(*sharded).ListAll`) over the per-shard channels using
  `container/heap`,
* thin forwarding for the single-key operations (`Copy` always fails), and
* construction `NewSharded` including endpoint-template validation.

The embedding below is shallow: channels become lists of the values sent on
them (a `none` entry is Go's `nil` object, the error sentinel; receiving past
the end of the list models receiving from a closed channel, which in Go also
yields `nil`), a backend is modelled by the script of responses it gives to
successive calls, and goroutines become pure functions from those scripts to
the sequence of values the goroutine sends before it terminates or blocks.
-/

/- Keys are Go byte strings compared lexicographically; Lean `String` with
its order serves.  Mathlib's `Decidable` instances for that order run over
string iterators, which the kernel cannot evaluate; the two instances below
decide the same propositions through the character lists, so that concrete
runs of the embedded code reduce under `decide`/`rfl`. -/

instance (priority := 2000) strDecLt (s t : String) : Decidable (s < t) :=
  decidable_of_iff (s.toList < t.toList) String.lt_iff_toList_lt.symm

instance (priority := 2000) strDecLe (s t : String) : Decidable (s ≤ t) :=
  inferInstanceAs (Decidable (¬ t < s))

/-- An object handle: its key plus (abstracted) backend metadata.
Only the key takes part in the algorithms of `sharding.go`. -/
structure Obj where
  key : String
  meta : Nat
deriving DecidableEq, Repr

/-- Errors, as far as `sharding.go` distinguishes them: the package-level
`notSupported` sentinel is compared against; every other error is kept abstract. -/
inductive Err where
  | notSupported
  | other (msg : String)
deriving DecidableEq, Repr

/-- `maxResults` (line 88): the page-size cap passed to every `store.List`. -/
def maxResults : Nat := 10000

/-- FNV-1a offset basis, from Go's `hash/fnv` (`offset32`). -/
def fnvOffset32 : Nat := 2166136261

/-- FNV-1a 32-bit prime, from Go's `hash/fnv` (`prime32`). -/
def fnvPrime32 : Nat := 16777619

/-- The 32-bit FNV-1a hash of a key's bytes, as computed by
`fnv.New32a(); h.Write([]byte(key)); h.Sum32()` (lines 54-56): fold
`h := (h XOR byte) * prime32  (mod 2^32)` over the UTF-8 bytes, starting
from the offset basis. -/
def fnv32a (key : String) : Nat :=
  key.toUTF8.toList.foldl (fun h b => ((h ^^^ b.toNat) * fnvPrime32) % 2 ^ 32) fnvOffset32

namespace sharded

/-- `(*sharded).pick` (lines 53-58): index the shard list at
`Sum32() % uint32(len(s.stores))`.  The shard list is abstracted to a list of
shard handles of any type; `none` is Go's index-out-of-range panic, which can
only happen for an empty shard list (division by zero in Go). -/
def pick {σ : Type} (stores : List σ) (key : String) : Option σ :=
  stores.get? (fnv32a key % stores.length)

/-- Observable state of one shard for the single-key operations: the log of
operations the shard has served (only its evolution matters to the claims). -/
structure ShardState where
  ops : List String
deriving DecidableEq, Repr

/-- `(*sharded).Copy` (lines 72-74): `return notSupported`, with no call on
any shard.  State-passing style: the result pairs the returned error with the
(unchanged) shard states. -/
def Copy (stores : List ShardState) (dst src : String) :
    Except Err Unit × List ShardState :=
  (.error .notSupported, stores)

end sharded

/-- One backend store, as observed by the listing driver: the result of its
native `ListAll` (line 92), and the script of responses its `List` method
gives to successive calls (the driver passes the listing arguments, marker and
`maxResults` on each call; the script already fixes what the backend answers,
so those arguments are not re-modelled). -/
structure Store where
  listAllNative : Except Err (List (Option Obj))
  listResponses : List (Except Err (List Obj))

/-- Result of processing one page in the goroutine's inner loop. -/
structure PageOut where
  out : List (Option Obj)
  lastkey : String
  first : Bool
  aborted : Bool
deriving DecidableEq, Repr

/-- The inner `for _, obj := range objs` loop of `ListAll` (lines 116-127):
for each object, if `!first && key <= lastkey` send `nil` (the ordering-error
sentinel) and stop; otherwise set `lastkey := key`, send the object and clear
`first`. -/
def processPage : List Obj → String → Bool → PageOut
  | [], lastkey, first => ⟨[], lastkey, first, false⟩
  | obj :: objs, lastkey, first =>
    if first = false ∧ obj.key ≤ lastkey then
      ⟨[none], lastkey, first, true⟩
    else
      let r := processPage objs obj.key false
      ⟨some obj :: r.out, r.lastkey, r.first, r.aborted⟩

/-- The fixed delay (milliseconds) between retries of a failed page request:
`time.Sleep(time.Millisecond * 100)` (line 141). -/
def retryDelayMs : Nat := 100

/-- The retry loop for a subsequent page (lines 137-143): call `store.List`
and, while it fails, sleep `retryDelayMs` and call again.  Given the backend's
remaining response script, returns the first successful page, the script
remaining after it, and the number of sleeps performed (one per failed
attempt); `none` when the script is exhausted before any success (the
goroutine is still retrying, blocked on the backend). -/
def retryList : List (Except Err (List Obj)) →
    Option (List Obj × List (Except Err (List Obj)) × Nat)
  | [] => none
  | .ok objs :: rest => some (objs, rest, 0)
  | .error _ :: rest => (retryList rest).map (fun r => (r.1, r.2.1, r.2.2 + 1))

/-- What a run of the listing goroutine produces. -/
structure RunOut where
  out : List (Option Obj)
  /-- number of `store.List` calls issued inside the goroutine
  (i.e. for pages after the first). -/
  calls : Nat
  /-- number of `time.Sleep(retryDelayMs)` calls performed. -/
  sleeps : Nat
  /-- `true` when the response script ran out while the goroutine was still
  retrying a page request: it has not terminated, and `out` holds what was
  sent so far. -/
  blocked : Bool
deriving DecidableEq, Repr

theorem retryList_length {script : List (Except Err (List Obj))}
    {p : List Obj} {rest : List (Except Err (List Obj))} {s : Nat}
    (h : retryList script = some (p, rest, s)) : rest.length < script.length := by
  induction script generalizing p rest s with
  | nil => simp [retryList] at h
  | cons x xs ih =>
    match x with
    | .ok objs =>
      simp only [retryList, Option.some.injEq, Prod.mk.injEq] at h
      obtain ⟨-, h2, -⟩ := h
      subst h2; simp
    | .error e =>
      simp only [retryList, Option.map_eq_some'] at h
      obtain ⟨⟨p', rest', s'⟩, hx, hf⟩ := h
      simp only [Prod.mk.injEq] at hf
      obtain ⟨-, h2, -⟩ := hf
      subst h2
      exact Nat.lt_trans (ih hx) (by simp)

/-- The goroutine of `ListAll` (lines 110-146), fuelled: the labelled `END`
loop.  While the current page is non-empty: run the inner loop; on an
ordering violation stop (the deferred `close` follows the sent `nil`); if
`lastkey` is empty, `break END` (the empty-key corner case, lines 128-132);
otherwise request the next page, retrying failures forever (lines 137-143),
and continue with the page obtained.  The fuel only bounds the number of
iterations so that the recursion is structural; every iteration past the
first consumes at least one script entry, so `script.length + 1` fuel is
always enough (`listLoopF_stable`). -/
def listLoopF : Nat → List Obj → String → Bool →
    List (Except Err (List Obj)) → RunOut
  | 0, _, _, _, _ => ⟨[], 0, 0, true⟩
  | Nat.succ fuel, objs, lastkey, first, script =>
    if objs = [] then ⟨[], 0, 0, false⟩
    else
      let p := processPage objs lastkey first
      if p.aborted then ⟨p.out, 0, 0, false⟩
      else if p.lastkey = "" then ⟨p.out, 0, 0, false⟩
      else
        match retryList script with
        | none => ⟨p.out, script.length + 1, script.length, true⟩
        | some (objs2, rest, s) =>
          let r := listLoopF fuel objs2 p.lastkey p.first rest
          ⟨p.out ++ r.out, s + 1 + r.calls, s + r.sleeps, r.blocked⟩

/-- The goroutine of `ListAll` (lines 110-146), with its fuel chosen large
enough never to run out. -/
def listLoop (objs : List Obj) (lastkey : String) (first : Bool)
    (script : List (Except Err (List Obj))) : RunOut :=
  listLoopF (script.length + 1) objs lastkey first script

theorem listLoopF_stable :
    ∀ (a b : Nat) (objs : List Obj) (lastkey : String) (first : Bool)
      (script : List (Except Err (List Obj))),
      script.length < a → script.length < b →
      listLoopF a objs lastkey first script =
        listLoopF b objs lastkey first script := by
  intro a
  induction a with
  | zero => intro b _ _ _ _ h1 _; exact absurd h1 (Nat.not_lt_zero _)
  | succ n ih =>
    intro b objs lastkey first script h1 h2
    match b with
    | 0 => exact absurd h2 (Nat.not_lt_zero _)
    | Nat.succ m =>
      simp only [listLoopF]
      match hr : retryList script with
      | none => rfl
      | some (objs2, rest, s) =>
        have hlen := retryList_length hr
        have e := ih m objs2 (processPage objs lastkey first).lastkey
          (processPage objs lastkey first).first rest (by omega) (by omega)
        dsimp only
        rw [e]

/-- One-step unfolding of `listLoop`, hiding the fuel. -/
theorem listLoop_eq (objs : List Obj) (lastkey : String) (first : Bool)
    (script : List (Except Err (List Obj))) :
    listLoop objs lastkey first script =
      if objs = [] then ⟨[], 0, 0, false⟩
      else
        let p := processPage objs lastkey first
        if p.aborted then ⟨p.out, 0, 0, false⟩
        else if p.lastkey = "" then ⟨p.out, 0, 0, false⟩
        else
          match retryList script with
          | none => ⟨p.out, script.length + 1, script.length, true⟩
          | some (objs2, rest, s) =>
            let r := listLoop objs2 p.lastkey p.first rest
            ⟨p.out ++ r.out, s + 1 + r.calls, s + r.sleeps, r.blocked⟩ := by
  show listLoopF (script.length + 1) objs lastkey first script = _
  simp only [listLoopF]
  match hr : retryList script with
  | none => rfl
  | some (objs2, rest, s) =>
    have hlen := retryList_length hr
    have e := listLoopF_stable script.length (rest.length + 1) objs2
      (processPage objs lastkey first).lastkey
      (processPage objs lastkey first).first rest (by omega) (by omega)
    dsimp only
    rw [e]
    rfl

/-- The observable outcome of the package-level `ListAll` (lines 91-148). -/
inductive ListAllResult where
  /-- the store's own `ListAll` succeeded (line 92-93); its channel is used. -/
  | native (ch : List (Option Obj))
  /-- `(nil, err)` was returned: an error, and no sequence. -/
  | err (e : Err)
  /-- delegated to `ListAllWithDelimiter` (line 103), an external collaborator. -/
  | delimited
  /-- the backend script holds no response to the first `List` call. -/
  | noResponse
  /-- the goroutine was started; `r` is what it does. -/
  | run (r : RunOut)
deriving DecidableEq, Repr

/-- Package-level `ListAll` (lines 91-148).  Try the store's native `ListAll`;
a non-`notSupported` error from it is returned as is.  Otherwise issue the
first `List` request: `notSupported` delegates to the delimiter path, any
other error is returned (`(nil, err)`, lines 105-108), and a success starts
the goroutine with `lastkey := ""`, `first := true`.  `marker` is forwarded
to the backend (whose responses the script fixes) and logged, nothing else. -/
def ListAll (store : Store) (marker : String) : ListAllResult :=
  match store.listAllNative with
  | .ok ch => .native ch
  | .error e =>
    if e = .notSupported then
      match store.listResponses with
      | [] => .noResponse
      | .error .notSupported :: _ => .delimited
      | .error e' :: _ => .err e'
      | .ok objs :: rest => .run (listLoop objs "" true rest)
    else .err e

/-- Receiving from a channel modelled as the list of values still to be
delivered: an empty list is a closed channel, whose receive yields Go's zero
value `nil` (`none`). -/
def recv : List (Option Obj) → Option Obj × List (Option Obj)
  | [] => (none, [])
  | x :: xs => (x, xs)

/-- A `nextKey` (lines 150-153): one shard channel's current head object
together with the rest of that channel. -/
abbrev NextKey := Obj × List (Option Obj)

/-- Remove a minimal-key entry from the frontier (first one on ties),
returning it and the remaining entries.  This models `heap.Pop` on
`nextObjects` by the `container/heap` contract: `Pop` removes a minimum
element of the heap in the order given by `Less` (line 160:
`os[i].o.Key() < os[j].o.Key()`).  `heap.Push`/`heap.Init` likewise reduce to
the collection of entries present, which a plain list represents. -/
def popMin : List NextKey → Option (NextKey × List NextKey)
  | [] => none
  | e :: es =>
    match popMin es with
    | none => some (e, [])
    | some (m, rest) =>
      if e.1.key ≤ m.1.key then some (e, es) else some (m, e :: rest)

/-- Size measure of a frontier: each entry counts its head plus its channel. -/
def entSize (e : NextKey) : Nat := 1 + e.2.length

/-- Total size of a frontier. -/
def frontSize (f : List NextKey) : Nat := (f.map entSize).sum

theorem popMin_perm :
    ∀ {f : List NextKey} {e : NextKey} {rest : List NextKey},
      popMin f = some (e, rest) → f.Perm (e :: rest) := by
  intro f
  induction f with
  | nil => intro e rest h; simp [popMin] at h
  | cons a as ih =>
    intro e rest h
    simp only [popMin] at h
    match hx : popMin as with
    | none =>
      rw [hx] at h
      simp only [Option.some.injEq, Prod.mk.injEq] at h
      obtain ⟨h1, h2⟩ := h
      subst h1; subst h2
      have : as = [] := by
        cases as with
        | nil => rfl
        | cons b bs =>
          exfalso
          simp only [popMin] at hx
          match hy : popMin bs with
          | none => rw [hy] at hx; simp at hx
          | some (m, r) =>
            rw [hy] at hx
            by_cases hle : b.1.key ≤ m.1.key <;> simp [hle] at hx
      subst this
      exact List.Perm.refl _
    | some (m, rest') =>
      rw [hx] at h
      by_cases hle : a.1.key ≤ m.1.key
      · simp only [if_pos hle, Option.some.injEq, Prod.mk.injEq] at h
        obtain ⟨h1, h2⟩ := h
        subst h1; subst h2
        exact List.Perm.refl _
      · simp only [if_neg hle, Option.some.injEq, Prod.mk.injEq] at h
        obtain ⟨h1, h2⟩ := h
        subst h1; subst h2
        exact ((ih hx).cons a).trans (List.Perm.swap m a rest')

theorem popMin_eq_none {f : List NextKey} : popMin f = none ↔ f = [] := by
  cases f with
  | nil => simp [popMin]
  | cons a as =>
    simp only [popMin]
    constructor
    · intro h
      match hx : popMin as with
      | none => rw [hx] at h; simp at h
      | some (m, rest) =>
        rw [hx] at h
        by_cases hle : a.1.key ≤ m.1.key <;> simp [hle] at h
    · intro h; exact absurd h (List.cons_ne_nil a as)

theorem popMin_min :
    ∀ {f : List NextKey} {e : NextKey} {rest : List NextKey},
      popMin f = some (e, rest) → ∀ x ∈ rest, e.1.key ≤ x.1.key := by
  intro f
  induction f with
  | nil => intro e rest h; simp [popMin] at h
  | cons a as ih =>
    intro e rest h
    simp only [popMin] at h
    match hx : popMin as with
    | none =>
      rw [hx] at h
      simp only [Option.some.injEq, Prod.mk.injEq] at h
      obtain ⟨h1, h2⟩ := h
      subst h2
      simp
    | some (m, rest') =>
      rw [hx] at h
      by_cases hle : a.1.key ≤ m.1.key
      · simp only [if_pos hle, Option.some.injEq, Prod.mk.injEq] at h
        obtain ⟨h1, h2⟩ := h
        subst h1; subst h2
        intro x hx'
        rcases List.mem_cons.mp ((popMin_perm hx).mem_iff.mp hx') with hm | hr
        · rw [hm]; exact hle
        · exact le_trans hle (ih hx x hr)
      · simp only [if_neg hle, Option.some.injEq, Prod.mk.injEq] at h
        obtain ⟨h1, h2⟩ := h
        subst h1; subst h2
        intro x hx'
        rcases List.mem_cons.mp hx' with hm | hr
        · rw [hm]; exact le_of_lt (lt_of_not_le hle)
        · exact ih hx x hr

theorem frontSize_popMin {f : List NextKey} {e : NextKey} {rest : List NextKey}
    (h : popMin f = some (e, rest)) : frontSize f = entSize e + frontSize rest := by
  have hp := popMin_perm h
  unfold frontSize
  rw [(hp.map entSize).sum_eq]
  simp

/-- The merge goroutine of `(*sharded).ListAll` (lines 184-194), fuelled:
while the frontier is non-empty, pop a minimal entry, send its object on
`out`, receive the next value from that entry's channel, and push the new
head back unless the receive yielded `nil` — which it does both for a closed
channel and for the ordering-error sentinel, the two being indistinguishable
to the receiver.  The fuel only makes the recursion structural; every
iteration shrinks `frontSize`, so `frontSize f + 1` fuel is always enough
(`mergeRunF_stable`). -/
def mergeRunF : Nat → List NextKey → List Obj
  | 0, _ => []
  | Nat.succ fuel, f =>
    match popMin f with
    | none => []
    | some (e, rest) =>
      match recv e.2 with
      | (none, _) => e.1 :: mergeRunF fuel rest
      | (some o, xs) => e.1 :: mergeRunF fuel ((o, xs) :: rest)

/-- The merge goroutine of `(*sharded).ListAll` (lines 184-194), with its
fuel chosen large enough never to run out. -/
def mergeRun (f : List NextKey) : List Obj := mergeRunF (frontSize f + 1) f

theorem recv_some {ch : List (Option Obj)} {o : Obj} {xs : List (Option Obj)}
    (h : recv ch = (some o, xs)) : ch = some o :: xs := by
  cases ch with
  | nil => simp [recv] at h
  | cons y ys =>
    simp only [recv, Prod.mk.injEq] at h
    rw [h.1, h.2]

theorem mergeRunF_stable :
    ∀ (a b : Nat) (f : List NextKey),
      frontSize f < a → frontSize f < b → mergeRunF a f = mergeRunF b f := by
  intro a
  induction a with
  | zero => intro b f h1 _; exact absurd h1 (Nat.not_lt_zero _)
  | succ n ih =>
    intro b f h1 h2
    match b with
    | 0 => exact absurd h2 (Nat.not_lt_zero _)
    | Nat.succ m =>
      simp only [mergeRunF]
      match hp : popMin f with
      | none => rfl
      | some (e, rest) =>
        have hsz := frontSize_popMin hp
        match hr : recv e.2 with
        | (none, _) =>
          dsimp only
          rw [hr]
          dsimp only
          have : frontSize rest < n ∧ frontSize rest < m := by
            constructor <;> · simp [entSize] at hsz; omega
          rw [ih m rest this.1 this.2]
        | (some o, xs) =>
          dsimp only
          rw [hr]
          dsimp only
          have he := recv_some hr
          have hlen : e.2.length = xs.length + 1 := by rw [he]; simp
          have hsz2 : frontSize ((o, xs) :: rest) < frontSize f := by
            simp only [frontSize, List.map_cons, List.sum_cons] at hsz ⊢
            simp only [entSize] at hsz ⊢
            omega
          rw [ih m ((o, xs) :: rest) (by omega) (by omega)]

/-- One-step unfolding of `mergeRun`, hiding the fuel. -/
theorem mergeRun_eq (f : List NextKey) :
    mergeRun f =
      match popMin f with
      | none => []
      | some (e, rest) =>
        match recv e.2 with
        | (none, _) => e.1 :: mergeRun rest
        | (some o, xs) => e.1 :: mergeRun ((o, xs) :: rest) := by
  show mergeRunF (frontSize f + 1) f = _
  simp only [mergeRunF]
  match hp : popMin f with
  | none => rfl
  | some (e, rest) =>
    have hsz := frontSize_popMin hp
    match hr : recv e.2 with
    | (none, _) =>
      dsimp only
      rw [hr]
      dsimp only
      have : frontSize rest < frontSize f := by simp [entSize] at hsz; omega
      rw [mergeRunF_stable (frontSize f) (frontSize rest + 1) rest (by omega) (by omega)]
      rfl
    | (some o, xs) =>
      dsimp only
      rw [hr]
      dsimp only
      have he := recv_some hr
      have hlen : e.2.length = xs.length + 1 := by rw [he]; simp
      have hsz2 : frontSize ((o, xs) :: rest) < frontSize f := by
        simp only [frontSize, List.map_cons, List.sum_cons] at hsz ⊢
        simp only [entSize] at hsz ⊢
        omega
      rw [mergeRunF_stable (frontSize f) (frontSize ((o, xs) :: rest) + 1)
        ((o, xs) :: rest) (by omega) (by omega)]
      rfl

/-- The initialization loop of `(*sharded).ListAll` (lines 171-181): pull one
value from each shard channel; a non-`nil` first value becomes a frontier
entry, a `nil` one (empty or immediately-failed shard) is dropped.
(`heap.Init` then establishes the heap order, which `popMin` models.) -/
def initHeads : List (List (Option Obj)) → List NextKey
  | [] => []
  | ch :: chs =>
    match recv ch with
    | (some o, rest) => (o, rest) :: initHeads chs
    | (none, _) => initHeads chs

/-- `(*sharded).ListAll` (lines 169-196), given the per-shard channels (the
outputs of the per-shard listing drivers): the values sent on the merged
`out` channel before it is closed. -/
def shardedListAll (chans : List (List (Option Obj))) : List Obj :=
  mergeRun (initHeads chans)

/-- Substitute the decimal of `i` for the first literal `%d` in a format
string (given as its character list); `none` when no `%d` occurs.  Helper
for `sprintfInt`; the fragment of `fmt.Sprintf` this pair models faithfully
is stated there. -/
def insertIndex (i : Nat) : List Char → Option (List Char)
  | [] => none
  | c :: cs =>
    if c = '%' ∧ cs.head? = some 'd' then some ((Nat.repr i).data ++ cs.tail)
    else (insertIndex i cs).map (fun l => c :: l)

/-- `fmt.Sprintf(endpoint, i)` (line 218), modelled on the fragment of
format strings the claim about `NewSharded` quantifies over: a format with
no `'%'` at all holds no verb, so Go leaves the `int` argument unconsumed
and appends its error marker `"%!(EXTRA int=<i>)"`; a format whose single
`'%'` is immediately followed by `'d'` holds exactly one `%d` verb, which
consumes the argument and prints its decimal.  On both, this definition
agrees with Go.  Outside the fragment Go's verb parser differs from the
literal `%d` scan of `insertIndex` (another verb such as `%s` still consumes
the argument and appends no marker; in `%%d` the escaped percent is a
literal and the marker is appended), so no theorem below quantifies over
such formats. -/
def sprintfInt (format : String) (i : Nat) : String :=
  match insertIndex i format.data with
  | some cs => String.mk cs
  | none => format ++ "%!(EXTRA int=" ++ Nat.repr i ++ ")"

/-- `strings.HasSuffix` over the characters. -/
def hasSuffix (s t : String) : Bool := decide (t.data <:+ s.data)

/-- The suffix `NewSharded` tests the formatted endpoint for (line 219). -/
def extraIntZero : String := "%!(EXTRA int=0)"

/-- The loop body of `NewSharded` (lines 217-226), iterated over the shard
indices: format the endpoint; if the formatted endpoint ends with the
missing-verb marker for index 0, fail; otherwise create the store for it
(`CreateStorage` lives outside this file; `create` stands for it), failing on
its error. -/
def newShardedLoop {S : Type} (create : String → Except Err S)
    (endpoint : String) : List Nat → Except Err (List S)
  | [] => .ok []
  | i :: is =>
    let ep := sprintfInt endpoint i
    if hasSuffix ep extraIntZero then
      .error (.other ("can not generate different endpoint using " ++ endpoint))
    else
      match create ep with
      | .error e => .error e
      | .ok s => (newShardedLoop create endpoint is).map (fun l => s :: l)

/-- `NewSharded` (lines 214-228): run the construction loop over the indices
`0 .. shards-1`; on success the `sharded` value is (up to the wrapping
struct) its list of stores. -/
def NewSharded {S : Type} (create : String → Except Err S) (endpoint : String)
    (shards : Nat) : Except Err (List S) :=
  newShardedLoop create endpoint (List.range shards)

/-- The keys of the objects a channel carries, skipping error sentinels. -/
def someKeys (out : List (Option Obj)) : List String :=
  (out.filterMap id).map Obj.key

/-- A produced sequence is a run of objects, optionally closed by a single
error sentinel (`nil`) in final position. -/
def CleanOrSentinel (out : List (Option Obj)) : Prop :=
  (∃ l : List Obj, out = l.map some) ∨ (∃ l : List Obj, out = l.map some ++ [none])

theorem someKeys_append (a b : List (Option Obj)) :
    someKeys (a ++ b) = someKeys a ++ someKeys b := by
  simp [someKeys, List.filterMap_append]

theorem someKeys_map_some (l : List Obj) : someKeys (l.map some) = l.map Obj.key := by
  simp [someKeys, List.filterMap_map]

theorem chain_append_getLastD {α : Type} {R : α → α → Prop} :
    ∀ (xs : List α) (a : α) (ys : List α), List.Chain R a xs →
      List.Chain R (xs.getLastD a) ys → List.Chain R a (xs ++ ys) := by
  intro xs
  induction xs with
  | nil => intro a ys _ h2; simpa using h2
  | cons x xs ih =>
    intro a ys h1 h2
    rw [List.chain_cons] at h1
    rw [List.getLastD_cons] at h2
    exact List.chain_cons.mpr ⟨h1.1, ih x ys h1.2 h2⟩

theorem chain'_of_chain {α : Type} {R : α → α → Prop} {a : α} {l : List α}
    (h : List.Chain R a l) : List.Chain' R l := by
  cases l with
  | nil => trivial
  | cons b bs => exact (List.chain_cons.mp h).2

theorem processPage_first (objs : List Obj) (lk : String) :
    (processPage objs lk false).first = false := by
  induction objs generalizing lk with
  | nil => rfl
  | cons o os ih =>
    simp only [processPage]
    by_cases h : o.key ≤ lk
    · simp [h]
    · simp [h, ih]

theorem processPage_true_cons (o : Obj) (os : List Obj) (lk : String) :
    processPage (o :: os) lk true =
      ⟨some o :: (processPage os o.key false).out,
        (processPage os o.key false).lastkey,
        (processPage os o.key false).first,
        (processPage os o.key false).aborted⟩ := by
  simp [processPage]

theorem processPage_out_not_aborted :
    ∀ (objs : List Obj) (lk : String) (f : Bool),
      (processPage objs lk f).aborted = false →
      (processPage objs lk f).out = objs.map some := by
  intro objs
  induction objs with
  | nil => intro lk f _; rfl
  | cons o os ih =>
    intro lk f h
    simp only [processPage] at h ⊢
    by_cases hc : f = false ∧ o.key ≤ lk
    · rw [if_pos hc] at h; simp at h
    · rw [if_neg hc] at h ⊢
      simp only [List.map_cons, List.cons.injEq, true_and]
      exact ih o.key false h

theorem processPage_out_aborted :
    ∀ (objs : List Obj) (lk : String) (f : Bool),
      (processPage objs lk f).aborted = true →
      ∃ l : List Obj, (processPage objs lk f).out = l.map some ++ [none] := by
  intro objs
  induction objs with
  | nil => intro lk f h; simp [processPage] at h
  | cons o os ih =>
    intro lk f h
    simp only [processPage] at h ⊢
    by_cases hc : f = false ∧ o.key ≤ lk
    · rw [if_pos hc]
      exact ⟨[], rfl⟩
    · rw [if_neg hc] at h ⊢
      obtain ⟨l, hl⟩ := ih o.key false h
      exact ⟨o :: l, by simp [hl]⟩

theorem processPage_lastkey :
    ∀ (objs : List Obj) (lk : String) (f : Bool),
      (processPage objs lk f).aborted = false →
      (processPage objs lk f).lastkey = (objs.map Obj.key).getLastD lk := by
  intro objs
  induction objs with
  | nil => intro lk f _; rfl
  | cons o os ih =>
    intro lk f h
    simp only [processPage] at h ⊢
    by_cases hc : f = false ∧ o.key ≤ lk
    · rw [if_pos hc] at h; simp at h
    · rw [if_neg hc] at h ⊢
      rw [List.map_cons, List.getLastD_cons]
      exact ih o.key false h

theorem processPage_chain (objs : List Obj) (lk : String) :
    List.Chain (· < ·) lk (someKeys (processPage objs lk false).out) := by
  induction objs generalizing lk with
  | nil => exact List.Chain.nil
  | cons o os ih =>
    simp only [processPage, true_and]
    by_cases h : o.key ≤ lk
    · rw [if_pos h]
      show List.Chain (· < ·) lk (someKeys [none])
      exact List.Chain.nil
    · rw [if_neg h]
      have hk : lk < o.key := lt_of_not_le h
      show List.Chain (· < ·) lk (someKeys (some o :: (processPage os o.key false).out))
      have : someKeys (some o :: (processPage os o.key false).out) =
          o.key :: someKeys (processPage os o.key false).out := by
        simp [someKeys]
      rw [this]
      exact List.chain_cons.mpr ⟨hk, ih o.key⟩

theorem listLoop_nil (lk : String) (f : Bool)
    (script : List (Except Err (List Obj))) :
    listLoop [] lk f script = ⟨[], 0, 0, false⟩ := by
  rw [listLoop_eq]
  rfl

theorem listLoop_aborted {objs : List Obj} {lk : String} {f : Bool}
    (script : List (Except Err (List Obj))) (h1 : objs ≠ [])
    (h2 : (processPage objs lk f).aborted = true) :
    listLoop objs lk f script = ⟨(processPage objs lk f).out, 0, 0, false⟩ := by
  rw [listLoop_eq]
  rw [if_neg h1]
  dsimp only
  rw [if_pos h2]

theorem listLoop_break {objs : List Obj} {lk : String} {f : Bool}
    (script : List (Except Err (List Obj))) (h1 : objs ≠ [])
    (h2 : (processPage objs lk f).aborted = false)
    (h3 : (processPage objs lk f).lastkey = "") :
    listLoop objs lk f script = ⟨(processPage objs lk f).out, 0, 0, false⟩ := by
  rw [listLoop_eq]
  rw [if_neg h1]
  dsimp only
  rw [if_neg (by simp [h2]), if_pos h3]

theorem listLoop_blocked {objs : List Obj} {lk : String} {f : Bool}
    {script : List (Except Err (List Obj))} (h1 : objs ≠ [])
    (h2 : (processPage objs lk f).aborted = false)
    (h3 : (processPage objs lk f).lastkey ≠ "")
    (h4 : retryList script = none) :
    listLoop objs lk f script =
      ⟨(processPage objs lk f).out, script.length + 1, script.length, true⟩ := by
  rw [listLoop_eq]
  rw [if_neg h1]
  dsimp only
  rw [if_neg (by simp [h2]), if_neg h3, h4]

theorem listLoop_cont {objs : List Obj} {lk : String} {f : Bool}
    {script : List (Except Err (List Obj))} {objs2 : List Obj}
    {rest : List (Except Err (List Obj))} {s : Nat} (h1 : objs ≠ [])
    (h2 : (processPage objs lk f).aborted = false)
    (h3 : (processPage objs lk f).lastkey ≠ "")
    (h4 : retryList script = some (objs2, rest, s)) :
    listLoop objs lk f script =
      ⟨(processPage objs lk f).out ++
          (listLoop objs2 (processPage objs lk f).lastkey
            (processPage objs lk f).first rest).out,
        s + 1 + (listLoop objs2 (processPage objs lk f).lastkey
            (processPage objs lk f).first rest).calls,
        s + (listLoop objs2 (processPage objs lk f).lastkey
            (processPage objs lk f).first rest).sleeps,
        (listLoop objs2 (processPage objs lk f).lastkey
            (processPage objs lk f).first rest).blocked⟩ := by
  rw [listLoop_eq]
  rw [if_neg h1]
  dsimp only
  rw [if_neg (by simp [h2]), if_neg h3, h4]

theorem processPage_inv (objs : List Obj) (lk : String) (f : Bool) :
    (f = false → List.Chain (· < ·) lk (someKeys (processPage objs lk f).out)) ∧
    List.Chain' (· < ·) (someKeys (processPage objs lk f).out) ∧
    CleanOrSentinel (processPage objs lk f).out := by
  have hshape : CleanOrSentinel (processPage objs lk f).out := by
    by_cases h : (processPage objs lk f).aborted = true
    · exact Or.inr (processPage_out_aborted objs lk f h)
    · exact Or.inl ⟨objs, processPage_out_not_aborted objs lk f (by simpa using h)⟩
  refine ⟨?_, ?_, hshape⟩
  · intro hf; subst hf; exact processPage_chain objs lk
  · cases f with
    | false => exact chain'_of_chain (processPage_chain objs lk)
    | true =>
      cases objs with
      | nil => trivial
      | cons o os =>
        rw [processPage_true_cons]
        show List.Chain' (· < ·) (someKeys (some o :: (processPage os o.key false).out))
        have hsk : someKeys (some o :: (processPage os o.key false).out) =
            o.key :: someKeys (processPage os o.key false).out := by simp [someKeys]
        rw [hsk]
        exact processPage_chain os o.key

theorem listLoop_inv (script : List (Except Err (List Obj))) (objs : List Obj)
    (lk : String) (f : Bool) :
    (f = false → List.Chain (· < ·) lk (someKeys (listLoop objs lk f script).out)) ∧
    List.Chain' (· < ·) (someKeys (listLoop objs lk f script).out) ∧
    CleanOrSentinel (listLoop objs lk f script).out := by
  by_cases h1 : objs = []
  · subst h1
    rw [listLoop_nil]
    exact ⟨fun _ => List.Chain.nil, by trivial, Or.inl ⟨[], rfl⟩⟩
  · by_cases h2 : (processPage objs lk f).aborted = true
    · rw [listLoop_aborted script h1 h2]
      exact processPage_inv objs lk f
    · have h2' : (processPage objs lk f).aborted = false := by simpa using h2
      by_cases h3 : (processPage objs lk f).lastkey = ""
      · rw [listLoop_break script h1 h2' h3]
        exact processPage_inv objs lk f
      · match h4 : retryList script with
        | none =>
          rw [listLoop_blocked h1 h2' h3 h4]
          exact processPage_inv objs lk f
        | some (objs2, rest, s) =>
          rw [listLoop_cont h1 h2' h3 h4]
          dsimp only
          have hout : (processPage objs lk f).out = objs.map some :=
            processPage_out_not_aborted objs lk f h2'
          have hlast : (processPage objs lk f).lastkey =
              (objs.map Obj.key).getLastD lk :=
            processPage_lastkey objs lk f h2'
          have hfirst : (processPage objs lk f).first = false := by
            cases f with
            | false => exact processPage_first objs lk
            | true =>
              cases objs with
              | nil => exact absurd rfl h1
              | cons o os =>
                rw [processPage_true_cons]
                exact processPage_first os o.key
          rw [hfirst]
          have ih := listLoop_inv rest objs2 (processPage objs lk f).lastkey
            (processPage objs lk f).first
          rw [hfirst] at ih
          obtain ⟨ihc, ihc', ihshape⟩ := ih
          have ihchain := ihc rfl
          have hmain : f = false →
              List.Chain (· < ·) lk
                (someKeys ((processPage objs lk f).out
                  ++ (listLoop objs2 (processPage objs lk f).lastkey false rest).out)) := by
            intro hf
            rw [someKeys_append, hout, someKeys_map_some]
            refine chain_append_getLastD _ _ _ ?_ ?_
            · have hc := processPage_chain objs lk
              rw [hf] at hout
              rw [hout, someKeys_map_some] at hc
              exact hc
            · rw [← hlast]
              exact ihchain
          have hchain' : List.Chain' (· < ·)
              (someKeys ((processPage objs lk f).out
                ++ (listLoop objs2 (processPage objs lk f).lastkey false rest).out)) := by
            cases f with
            | false => exact chain'_of_chain (hmain rfl)
            | true =>
              cases objs with
              | nil => exact absurd rfl h1
              | cons o os =>
                have hq : (processPage (o :: os) lk true).out =
                    some o :: (processPage os o.key false).out := by
                  rw [processPage_true_cons]
                have hqab : (processPage os o.key false).aborted = false := by
                  rw [processPage_true_cons] at h2'
                  exact h2'
                have hqout : (processPage os o.key false).out = os.map some :=
                  processPage_out_not_aborted os o.key false hqab
                rw [hq, hqout]
                have hsk : someKeys ((some o :: os.map some)
                    ++ (listLoop objs2 (processPage (o :: os) lk true).lastkey false rest).out) =
                    o.key :: (os.map Obj.key ++
                      someKeys (listLoop objs2 (processPage (o :: os) lk true).lastkey false rest).out) := by
                  rw [List.cons_append, someKeys]
                  simp [someKeys, List.filterMap_append, List.filterMap_map]
                rw [hsk]
                show List.Chain (· < ·) o.key _
                refine chain_append_getLastD _ _ _ ?_ ?_
                · have hc := processPage_chain os o.key
                  rw [hqout, someKeys_map_some] at hc
                  exact hc
                · have hl2 : (processPage (o :: os) lk true).lastkey =
                      (os.map Obj.key).getLastD o.key := by
                    rw [hlast, List.map_cons, List.getLastD_cons]
                  rw [← hl2]
                  exact ihchain
          refine ⟨hmain, hchain', ?_⟩
          rw [hout]
          rcases ihshape with ⟨l, hl⟩ | ⟨l, hl⟩
          · exact Or.inl ⟨objs ++ l, by simp [hl]⟩
          · exact Or.inr ⟨objs ++ l, by simp [hl]⟩
termination_by script.length
decreasing_by exact retryList_length h4

/-- The objects a channel delivers (its values up to `nil` markers). -/
def chanObjs (ch : List (Option Obj)) : List Obj := ch.filterMap id

/-- The objects a frontier entry still owns: its head and its channel's. -/
def entObjs (e : NextKey) : List Obj := e.1 :: chanObjs e.2

/-- A well-formed per-shard channel: it carries no error sentinel and its
keys are strictly increasing — what the listing driver guarantees for a
violation-free run. -/
@[reducible] def WellFormedChan (ch : List (Option Obj)) : Prop :=
  (∀ x ∈ ch, x ≠ none) ∧ List.Chain' (· < ·) (someKeys ch)

/-- Frontier-entry invariant: the entry's channel is sentinel-free and its
keys strictly ascend from the entry's head key. -/
def EntChain (e : NextKey) : Prop :=
  (∀ x ∈ e.2, x ≠ none) ∧ List.Chain (· < ·) e.1.key (someKeys e.2)

theorem chanObjs_cons_some (o : Obj) (ch : List (Option Obj)) :
    chanObjs (some o :: ch) = o :: chanObjs ch := by
  simp [chanObjs]

theorem someKeys_eq_map_chanObjs (ch : List (Option Obj)) :
    someKeys ch = (chanObjs ch).map Obj.key := rfl

theorem mergeRun_perm (f : List NextKey)
    (h : ∀ e ∈ f, ∀ x ∈ e.2, x ≠ none) :
    (mergeRun f).Perm (f.flatMap entObjs) := by
  rw [mergeRun_eq]
  match hp : popMin f with
  | none =>
    rw [popMin_eq_none] at hp
    subst hp
    simp
  | some (e, rest) =>
    have hperm := popMin_perm hp
    have hef : e ∈ f := hperm.mem_iff.mpr (List.mem_cons_self e rest)
    have hflat : (f.flatMap entObjs).Perm ((e :: rest).flatMap entObjs) :=
      hperm.flatMap_right entObjs
    match hr : recv e.2 with
    | (none, _) =>
      dsimp only
      rw [hr]
      dsimp only
      have he2 : e.2 = [] := by
        cases hx : e.2 with
        | nil => rfl
        | cons y ys =>
          rw [hx] at hr
          simp only [recv, Prod.mk.injEq] at hr
          exact absurd hr.1 (h e hef y (by rw [hx]; exact List.mem_cons_self y ys))
      have ih := mergeRun_perm rest
        (fun e2 he2m x hx => h e2 (hperm.mem_iff.mpr (List.mem_cons_of_mem e he2m)) x hx)
      refine ((ih.cons e.1).trans ?_).trans hflat.symm
      simp [entObjs, chanObjs, he2]
    | (some o, xs) =>
      dsimp only
      rw [hr]
      dsimp only
      have he2 : e.2 = some o :: xs := recv_some hr
      have ih := mergeRun_perm ((o, xs) :: rest) ?_
      · refine ((ih.cons e.1).trans ?_).trans hflat.symm
        simp only [List.flatMap_cons, entObjs, he2, chanObjs_cons_some]
        exact List.Perm.refl _
      · intro e2 he2m x hx
        rcases List.mem_cons.mp he2m with hee | hrr
        · rw [hee] at hx
          exact h e hef x (he2 ▸ List.mem_cons_of_mem (some o) hx)
        · exact h e2 (hperm.mem_iff.mpr (List.mem_cons_of_mem e hrr)) x hx
termination_by frontSize f
decreasing_by
  · rw [frontSize_popMin hp]
    simp [entSize]
  · rw [frontSize_popMin hp]
    simp only [frontSize, List.map_cons, List.sum_cons, entSize, he2,
      List.length_cons]
    omega

theorem mergeRun_lower (f : List NextKey) (hent : ∀ e ∈ f, EntChain e)
    (b : String) (hb : ∀ e ∈ f, b ≤ e.1.key) :
    ∀ o ∈ mergeRun f, b ≤ o.key := by
  rw [mergeRun_eq]
  match hp : popMin f with
  | none => simp
  | some (e, rest) =>
    have hperm := popMin_perm hp
    have hef : e ∈ f := hperm.mem_iff.mpr (List.mem_cons_self e rest)
    have hrest : ∀ e2 ∈ rest, e2 ∈ f :=
      fun e2 h2 => hperm.mem_iff.mpr (List.mem_cons_of_mem e h2)
    match hr : recv e.2 with
    | (none, _) =>
      dsimp only
      rw [hr]
      dsimp only
      intro o ho
      rcases List.mem_cons.mp ho with hoe | hom
      · rw [hoe]; exact hb e hef
      · exact mergeRun_lower rest (fun e2 h2 => hent e2 (hrest e2 h2)) b
          (fun e2 h2 => hb e2 (hrest e2 h2)) o hom
    | (some o1, xs) =>
      dsimp only
      rw [hr]
      dsimp only
      have he2 : e.2 = some o1 :: xs := recv_some hr
      have hec := (hent e hef).2
      rw [he2] at hec
      have hec' : List.Chain (· < ·) e.1.key (o1.key :: someKeys xs) := hec
      rw [List.chain_cons] at hec'
      have hnew : EntChain (o1, xs) := by
        refine ⟨?_, hec'.2⟩
        intro x hx
        exact (hent e hef).1 x (by rw [he2]; exact List.mem_cons_of_mem _ hx)
      intro o ho
      rcases List.mem_cons.mp ho with hoe | hom
      · rw [hoe]; exact hb e hef
      · refine mergeRun_lower ((o1, xs) :: rest) ?_ b ?_ o hom
        · intro e2 h2
          rcases List.mem_cons.mp h2 with h2e | h2r
          · rw [h2e]; exact hnew
          · exact hent e2 (hrest e2 h2r)
        · intro e2 h2
          rcases List.mem_cons.mp h2 with h2e | h2r
          · rw [h2e]
            exact le_trans (hb e hef) (le_of_lt hec'.1)
          · exact hb e2 (hrest e2 h2r)
termination_by frontSize f
decreasing_by
  · rw [frontSize_popMin hp]
    simp [entSize]
  · rw [frontSize_popMin hp]
    simp only [frontSize, List.map_cons, List.sum_cons, entSize, he2,
      List.length_cons]
    omega

theorem mergeRun_sorted (f : List NextKey) (hent : ∀ e ∈ f, EntChain e) :
    List.Sorted (· ≤ ·) ((mergeRun f).map Obj.key) := by
  rw [mergeRun_eq]
  match hp : popMin f with
  | none => simp
  | some (e, rest) =>
    have hperm := popMin_perm hp
    have hef : e ∈ f := hperm.mem_iff.mpr (List.mem_cons_self e rest)
    have hrest : ∀ e2 ∈ rest, e2 ∈ f :=
      fun e2 h2 => hperm.mem_iff.mpr (List.mem_cons_of_mem e h2)
    have hmin := popMin_min hp
    match hr : recv e.2 with
    | (none, _) =>
      dsimp only
      rw [hr]
      dsimp only
      rw [List.map_cons, List.sorted_cons]
      have hent' : ∀ e2 ∈ rest, EntChain e2 := fun e2 h2 => hent e2 (hrest e2 h2)
      constructor
      · intro k hk
        obtain ⟨o2, ho2, hko⟩ := List.mem_map.mp hk
        rw [← hko]
        exact mergeRun_lower rest hent' e.1.key hmin o2 ho2
      · exact mergeRun_sorted rest hent'
    | (some o1, xs) =>
      dsimp only
      rw [hr]
      dsimp only
      have he2 : e.2 = some o1 :: xs := recv_some hr
      have hec := (hent e hef).2
      rw [he2] at hec
      have hec' : List.Chain (· < ·) e.1.key (o1.key :: someKeys xs) := hec
      rw [List.chain_cons] at hec'
      have hnew : EntChain (o1, xs) := by
        refine ⟨?_, hec'.2⟩
        intro x hx
        exact (hent e hef).1 x (by rw [he2]; exact List.mem_cons_of_mem _ hx)
      have hent' : ∀ e2 ∈ (o1, xs) :: rest, EntChain e2 := by
        intro e2 h2
        rcases List.mem_cons.mp h2 with h2e | h2r
        · rw [h2e]; exact hnew
        · exact hent e2 (hrest e2 h2r)
      have hb' : ∀ e2 ∈ (o1, xs) :: rest, e.1.key ≤ e2.1.key := by
        intro e2 h2
        rcases List.mem_cons.mp h2 with h2e | h2r
        · rw [h2e]; exact le_of_lt hec'.1
        · exact hmin e2 h2r
      rw [List.map_cons, List.sorted_cons]
      constructor
      · intro k hk
        obtain ⟨o2, ho2, hko⟩ := List.mem_map.mp hk
        rw [← hko]
        exact mergeRun_lower ((o1, xs) :: rest) hent' e.1.key hb' o2 ho2
      · exact mergeRun_sorted ((o1, xs) :: rest) hent'
termination_by frontSize f
decreasing_by
  · rw [frontSize_popMin hp]
    simp [entSize]
  · rw [frontSize_popMin hp]
    simp only [frontSize, List.map_cons, List.sum_cons, entSize, he2,
      List.length_cons]
    omega

theorem initHeads_flat :
    ∀ (chans : List (List (Option Obj))),
      (∀ ch ∈ chans, ∀ x ∈ ch, x ≠ none) →
      (initHeads chans).flatMap entObjs = chans.flatMap chanObjs := by
  intro chans
  induction chans with
  | nil => intro _; rfl
  | cons ch chs ih =>
    intro hc
    have hch := hc ch (List.mem_cons_self ch chs)
    have hcs : ∀ ch2 ∈ chs, ∀ x ∈ ch2, x ≠ none :=
      fun ch2 h2 => hc ch2 (List.mem_cons_of_mem ch h2)
    cases ch with
    | nil =>
      simp only [initHeads, recv, List.flatMap_cons]
      rw [ih hcs]
      simp [chanObjs]
    | cons x xs =>
      cases x with
      | none => exact absurd rfl (hch none (List.mem_cons_self none xs))
      | some o =>
        simp only [initHeads, recv, List.flatMap_cons]
        rw [ih hcs]
        simp [entObjs, chanObjs]

theorem initHeads_ent :
    ∀ (chans : List (List (Option Obj))),
      (∀ ch ∈ chans, WellFormedChan ch) →
      ∀ e ∈ initHeads chans, EntChain e := by
  intro chans
  induction chans with
  | nil => intro _ e he; simp [initHeads] at he
  | cons ch chs ih =>
    intro hw
    have hch := hw ch (List.mem_cons_self ch chs)
    have hcs : ∀ ch2 ∈ chs, WellFormedChan ch2 :=
      fun ch2 h2 => hw ch2 (List.mem_cons_of_mem ch h2)
    cases ch with
    | nil =>
      simp only [initHeads, recv]
      exact ih hcs
    | cons x xs =>
      cases x with
      | none => exact absurd rfl (hch.1 none (List.mem_cons_self none xs))
      | some o =>
        simp only [initHeads, recv]
        intro e he
        rcases List.mem_cons.mp he with heo | hem
        · rw [heo]
          constructor
          · intro y hy
            exact hch.1 y (List.mem_cons_of_mem (some o) hy)
          · have := hch.2
            have hsk : someKeys (some o :: xs) = o.key :: someKeys xs := by
              simp [someKeys]
            rw [hsk] at this
            exact this
        · exact ih hcs e hem

theorem processPage_violation :
    ∀ (pre : List Obj) (lk : String) (v : Obj) (rest : List Obj),
      List.Chain (· < ·) lk (pre.map Obj.key) →
      v.key ≤ (pre.map Obj.key).getLastD lk →
      (processPage (pre ++ v :: rest) lk false).out = pre.map some ++ [none] ∧
      (processPage (pre ++ v :: rest) lk false).aborted = true := by
  intro pre
  induction pre with
  | nil =>
    intro lk v rest _ hviol
    simp only [List.map_nil, List.getLastD_nil] at hviol
    simp only [List.nil_append, List.map_nil, processPage, true_and]
    rw [if_pos hviol]
    exact ⟨rfl, rfl⟩
  | cons p ps ih =>
    intro lk v rest hchain hviol
    rw [List.map_cons, List.chain_cons] at hchain
    rw [List.map_cons, List.getLastD_cons] at hviol
    have hp : ¬ p.key ≤ lk := not_le_of_lt hchain.1
    simp only [List.cons_append, processPage, true_and]
    rw [if_neg hp]
    have hr := ih p.key v rest hchain.2 hviol
    refine ⟨?_, hr.2⟩
    show some p :: (processPage (ps ++ v :: rest) p.key false).out = _
    rw [hr.1]
    simp

/-- Is a `store.List` response a success? -/
def isOkResp : Except Err (List Obj) → Bool
  | .ok _ => true
  | .error _ => false

theorem retryList_filter :
    ∀ (script : List (Except Err (List Obj))),
      retryList (script.filter isOkResp) =
        (retryList script).map (fun t => (t.1, t.2.1.filter isOkResp, 0)) := by
  intro script
  induction script with
  | nil => rfl
  | cons x xs ih =>
    cases x with
    | ok objs => simp [retryList, isOkResp, List.filter_cons]
    | error e =>
      simp only [List.filter_cons, isOkResp, retryList, if_neg Bool.false_ne_true]
      rw [ih]
      cases retryList xs with
      | none => rfl
      | some t => rfl

theorem listLoop_filter (script : List (Except Err (List Obj)))
    (objs : List Obj) (lk : String) (f : Bool) :
    (listLoop objs lk f script).out =
      (listLoop objs lk f (script.filter isOkResp)).out := by
  by_cases h1 : objs = []
  · subst h1
    rw [listLoop_nil, listLoop_nil]
  · by_cases h2 : (processPage objs lk f).aborted = true
    · rw [listLoop_aborted script h1 h2,
        listLoop_aborted (script.filter isOkResp) h1 h2]
    · have h2' : (processPage objs lk f).aborted = false := by simpa using h2
      by_cases h3 : (processPage objs lk f).lastkey = ""
      · rw [listLoop_break script h1 h2' h3,
          listLoop_break (script.filter isOkResp) h1 h2' h3]
      · match h4 : retryList script with
        | none =>
          have h4' : retryList (script.filter isOkResp) = none := by
            rw [retryList_filter, h4]; rfl
          rw [listLoop_blocked h1 h2' h3 h4, listLoop_blocked h1 h2' h3 h4']
        | some (objs2, rest, s) =>
          have h4' : retryList (script.filter isOkResp) =
              some (objs2, rest.filter isOkResp, 0) := by
            rw [retryList_filter, h4]; rfl
          rw [listLoop_cont h1 h2' h3 h4, listLoop_cont h1 h2' h3 h4']
          dsimp only
          rw [listLoop_filter rest objs2 (processPage objs lk f).lastkey
            (processPage objs lk f).first]
termination_by script.length
decreasing_by exact retryList_length h4

theorem retryList_replicate_error (k : Nat) (e : Err) (p : List Obj)
    (rest : List (Except Err (List Obj))) :
    retryList (List.replicate k (.error e) ++ .ok p :: rest) = some (p, rest, k) := by
  induction k with
  | zero => rfl
  | succ n ih =>
    rw [List.replicate_succ, List.cons_append]
    show (retryList (List.replicate n (.error e) ++ .ok p :: rest)).map _ = _
    rw [ih]
    rfl

theorem sprintf_noVerb_ends_marker (fmt : String)
    (h : insertIndex 0 fmt.data = none) :
    hasSuffix (sprintfInt fmt 0) extraIntZero = true := by
  simp only [sprintfInt, h]
  have h0 : (Nat.repr 0).data = ['0'] := rfl
  simp only [hasSuffix, extraIntZero, String.data_append, h0,
    List.singleton_append, List.append_assoc, List.cons_append,
    List.nil_append, decide_eq_true_eq]
  exact List.suffix_append _ _

theorem insertIndex_none_of_no_percent (i : Nat) :
    ∀ (cs : List Char), '%' ∉ cs → insertIndex i cs = none := by
  intro cs
  induction cs with
  | nil => intro _; rfl
  | cons c cs ih =>
    intro h
    have hc : c ≠ '%' := fun he => h (he ▸ List.mem_cons_self c cs)
    simp only [insertIndex]
    rw [if_neg (by simp [hc]), ih (fun hm => h (List.mem_cons_of_mem c hm))]
    rfl

theorem insertIndex_single_verb (i : Nat) :
    ∀ (a b : List Char), '%' ∉ a →
      insertIndex i (a ++ '%' :: 'd' :: b) =
        some (a ++ (Nat.repr i).data ++ b) := by
  intro a
  induction a with
  | nil =>
    intro b _
    simp only [List.nil_append, insertIndex]
    rw [if_pos (by simp)]
    simp
  | cons c a2 ih =>
    intro b ha
    have hc : c ≠ '%' := fun he => ha (he ▸ List.mem_cons_self c a2)
    simp only [List.cons_append, insertIndex, List.append_eq]
    rw [if_neg (by simp [hc]), ih b (fun hm => ha (List.mem_cons_of_mem c hm))]
    simp

theorem newShardedLoop_ok {S : Type} (create : String → Except Err S)
    (endpoint : String) (f : Nat → S) :
    ∀ is : List Nat,
      (∀ i ∈ is, hasSuffix (sprintfInt endpoint i) extraIntZero = false) →
      (∀ i ∈ is, create (sprintfInt endpoint i) = .ok (f i)) →
      newShardedLoop create endpoint is = .ok (is.map f) := by
  intro is
  induction is with
  | nil => intro _ _; rfl
  | cons i is2 ih =>
    intro hsuf hok
    have h1 := hsuf i (List.mem_cons_self i is2)
    have h2 := hok i (List.mem_cons_self i is2)
    simp only [newShardedLoop]
    rw [if_neg (by simp [h1]), h2,
      ih (fun j hj => hsuf j (List.mem_cons_of_mem i hj))
        (fun j hj => hok j (List.mem_cons_of_mem i hj))]
    rfl

theorem ListAll_run_inv (store : Store) (m : String) (r : RunOut)
    (h : ListAll store m = .run r) :
    List.Chain' (· < ·) (someKeys r.out) ∧ CleanOrSentinel r.out := by
  unfold ListAll at h
  match hn : store.listAllNative with
  | .ok ch => rw [hn] at h; simp at h
  | .error e =>
    rw [hn] at h
    dsimp only at h
    by_cases he : e = Err.notSupported
    · rw [if_pos he] at h
      match hs : store.listResponses with
      | [] => rw [hs] at h; simp at h
      | .error Err.notSupported :: tl => rw [hs] at h; simp at h
      | .error (Err.other msg) :: tl => rw [hs] at h; simp at h
      | .ok objs :: rest =>
        rw [hs] at h
        dsimp only at h
        simp only [ListAllResult.run.injEq] at h
        subst h
        exact ⟨(listLoop_inv rest objs "" true).2.1,
          (listLoop_inv rest objs "" true).2.2⟩
    · rw [if_neg he] at h; simp at h

theorem listLoop_out_append (objs : List Obj) (lk : String) (f : Bool)
    (script : List (Except Err (List Obj))) (hne : objs ≠ []) :
    ∃ t, (listLoop objs lk f script).out = (processPage objs lk f).out ++ t := by
  by_cases h2 : (processPage objs lk f).aborted = true
  · exact ⟨[], by rw [listLoop_aborted script hne h2]; simp⟩
  · have h2' : (processPage objs lk f).aborted = false := by simpa using h2
    by_cases h3 : (processPage objs lk f).lastkey = ""
    · exact ⟨[], by rw [listLoop_break script hne h2' h3]; simp⟩
    · match h4 : retryList script with
      | none => exact ⟨[], by rw [listLoop_blocked hne h2' h3 h4]; simp⟩
      | some (objs2, rest, s) =>
        exact ⟨_, by rw [listLoop_cont hne h2' h3 h4]⟩

/-- Claim C5: for every key and every shard set of size `N ≥ 1`, `pick`
deterministically (it is a pure function of the key and the shard list, with
no seed or process state) selects the shard at index
`fnv32a(key) mod N`. -/
theorem pick_fnv1a_mod {σ : Type} (stores : List σ) (key : String)
    (h : 0 < stores.length) :
    sharded.pick stores key =
      some (stores.get ⟨fnv32a key % stores.length, Nat.mod_lt _ h⟩) :=
  List.get?_eq_get _

theorem pick_fnv1a_mod_witness :
    0 < ([10, 20, 30] : List Nat).length ∧
    sharded.pick ([10, 20, 30] : List Nat) "k1" =
      some (([10, 20, 30] : List Nat).get
        ⟨fnv32a "k1" % ([10, 20, 30] : List Nat).length, Nat.mod_lt _ (by decide)⟩) :=
  ⟨by decide, pick_fnv1a_mod [10, 20, 30] "k1" (by decide)⟩

/-- Claim C9: for every pair of keys, the sharded facade's `Copy` returns the
fixed not-supported error immediately, invokes no operation on any shard, and
leaves every shard's state unchanged. -/
theorem copy_not_supported (stores : List sharded.ShardState) (dst src : String) :
    (sharded.Copy stores dst src).1 = .error .notSupported ∧
    (sharded.Copy stores dst src).2 = stores :=
  ⟨rfl, rfl⟩

/-- Claim C8: with caller marker `""` and a first page holding exactly one
object whose key is `""`, the driver emits that object and terminates without
issuing another page request (`calls = 0`), whatever responses the backend
would have given further requests. -/
theorem listAll_empty_key_corner (o : Obj) (m : String)
    (rest : List (Except Err (List Obj))) (h1 : o.key = "") (h2 : m = "") :
    ListAll ⟨.error .notSupported, .ok [o] :: rest⟩ m =
      .run ⟨[some o], 0, 0, false⟩ := by
  subst h2
  show ListAllResult.run (listLoop [o] "" true rest) = _
  have hpp : processPage [o] "" true = ⟨[some o], o.key, false, false⟩ := by
    simp [processPage]
  rw [listLoop_break rest (by simp) (by rw [hpp]) (by rw [hpp]; exact h1)]
  rw [hpp]

theorem listAll_empty_key_corner_witness :
    (⟨"", 7⟩ : Obj).key = "" ∧ ("" : String) = "" ∧
    ListAll ⟨.error .notSupported, [.ok [⟨"", 7⟩], .ok [⟨"x", 1⟩]]⟩ "" =
      .run ⟨[some ⟨"", 7⟩], 0, 0, false⟩ :=
  ⟨rfl, rfl, listAll_empty_key_corner ⟨"", 7⟩ "" [.ok [⟨"x", 1⟩]] rfl rfl⟩

/-- Claim C10: the driver never validates the first emitted object against
the caller-supplied marker: for any marker `m`, if the first object of the
first page has key `≤ m`, that object is emitted (it heads the output) with
no ordering error; the strict-increase check starts from the second emitted
object. -/
theorem listAll_first_object_unchecked (m : String) (o : Obj) (os : List Obj)
    (script : List (Except Err (List Obj))) (r : RunOut)
    (hm : o.key ≤ m)
    (h : ListAll ⟨.error .notSupported, .ok (o :: os) :: script⟩ m = .run r) :
    r.out.head? = some (some o) := by
  have hid : ListAll ⟨.error .notSupported, .ok (o :: os) :: script⟩ m =
      .run (listLoop (o :: os) "" true script) := rfl
  rw [hid] at h
  simp only [ListAllResult.run.injEq] at h
  subst h
  obtain ⟨t, ht⟩ := listLoop_out_append (o :: os) "" true script (by simp)
  rw [ht, processPage_true_cons]
  rfl

theorem listAll_first_object_unchecked_witness :
    ((⟨"a", 1⟩ : Obj).key ≤ "m") ∧
    (ListAll ⟨.error .notSupported, [.ok [⟨"a", 1⟩, ⟨"b", 2⟩], .ok []]⟩ "m" =
      .run ⟨[some ⟨"a", 1⟩, some ⟨"b", 2⟩], 1, 0, false⟩) ∧
    ([some (⟨"a", 1⟩ : Obj), some ⟨"b", 2⟩] : List (Option Obj)).head? =
      some (some ⟨"a", 1⟩) := by
  refine ⟨by decide, rfl, ?_⟩
  exact listAll_first_object_unchecked "m" ⟨"a", 1⟩ [⟨"b", 2⟩] [.ok []]
    ⟨[some ⟨"a", 1⟩, some ⟨"b", 2⟩], 1, 0, false⟩ (by decide) rfl

/-- Claim C4 counterexample: a successful first page with one object (fewer
than the `maxResults` cap of 10000) does not end the listing — the driver
issues one further `List` request (`calls = 1`), contradicting the claim that
a page smaller than the cap completes the listing with no further request. -/
theorem listAll_small_page_counterexample :
    ([(⟨"a", 1⟩ : Obj)].length < maxResults) ∧
    ListAll ⟨.error .notSupported, [.ok [⟨"a", 1⟩], .ok []]⟩ "" =
      .run ⟨[some ⟨"a", 1⟩], 1, 0, false⟩ :=
  ⟨by decide, rfl⟩

/-- Claim C4, amended: the goroutine ends the sequence without a further page
request exactly on a page of zero objects (or on the empty-lastkey corner
case, or an ordering abort); after any non-empty page whose last key is
non-empty it always issues at least one further `List` request, regardless of
the page being smaller than the cap. -/
theorem listAll_page_termination :
    (∀ (lk : String) (f : Bool) (script : List (Except Err (List Obj))),
      listLoop [] lk f script = ⟨[], 0, 0, false⟩) ∧
    (∀ (objs : List Obj) (lk : String) (f : Bool)
        (script : List (Except Err (List Obj))),
      objs ≠ [] → (processPage objs lk f).aborted = false →
      (processPage objs lk f).lastkey ≠ "" →
      1 ≤ (listLoop objs lk f script).calls) := by
  refine ⟨listLoop_nil, ?_⟩
  intro objs lk f script h1 h2 h3
  match h4 : retryList script with
  | none =>
    rw [listLoop_blocked h1 h2 h3 h4]
    dsimp only
    omega
  | some (objs2, rest, s) =>
    rw [listLoop_cont h1 h2 h3 h4]
    dsimp only
    omega

theorem listAll_page_termination_witness :
    ([(⟨"a", 1⟩ : Obj)] ≠ []) ∧
    ((processPage [(⟨"a", 1⟩ : Obj)] "" true).aborted = false) ∧
    ((processPage [(⟨"a", 1⟩ : Obj)] "" true).lastkey ≠ "") ∧
    1 ≤ (listLoop [(⟨"a", 1⟩ : Obj)] "" true [.ok []]).calls := by
  refine ⟨by decide, by decide, by decide, ?_⟩
  exact listAll_page_termination.2 [⟨"a", 1⟩] "" true [.ok []]
    (by decide) (by decide) (by decide)

/-- Claim C2: for every page received mid-listing, if an object's key is not
strictly greater than the previously emitted key, the driver emits the
objects preceding the violation, then the `nil` ordering-error sentinel, and
aborts without emitting the violating object (first conjunct; the very first
object of the run is exempt, having no predecessor — the driver-level
invariant in the second conjunct therefore quantifies over whole runs:
whatever pages the backend scripts, the emitted keys are strictly increasing
and a sentinel can only close the sequence). -/
theorem listAll_ordering_validation :
    (∀ (pre : List Obj) (lk : String) (v : Obj) (rest : List Obj),
      List.Chain (· < ·) lk (pre.map Obj.key) →
      v.key ≤ (pre.map Obj.key).getLastD lk →
      (processPage (pre ++ v :: rest) lk false).out = pre.map some ++ [none] ∧
      (processPage (pre ++ v :: rest) lk false).aborted = true) ∧
    (∀ (store : Store) (m : String) (r : RunOut),
      ListAll store m = .run r →
      List.Chain' (· < ·) (someKeys r.out) ∧ CleanOrSentinel r.out) :=
  ⟨processPage_violation, ListAll_run_inv⟩

theorem listAll_ordering_validation_witness :
    (List.Chain (· < ·) "" ([(⟨"b", 2⟩ : Obj)].map Obj.key) ∧
      (⟨"a", 1⟩ : Obj).key ≤ ([(⟨"b", 2⟩ : Obj)].map Obj.key).getLastD "" ∧
      (processPage ([⟨"b", 2⟩] ++ ⟨"a", 1⟩ :: []) "" false).out =
        [(⟨"b", 2⟩ : Obj)].map some ++ [none]) ∧
    (ListAll ⟨.error .notSupported, [.ok [⟨"b", 2⟩, ⟨"a", 1⟩]]⟩ "" =
        .run ⟨[some ⟨"b", 2⟩, none], 0, 0, false⟩ ∧
      List.Chain' (· < ·) (someKeys [some (⟨"b", 2⟩ : Obj), none])) := by
  constructor
  · have h1 : List.Chain (· < ·) "" ([(⟨"b", 2⟩ : Obj)].map Obj.key) := by
      simp only [List.map_cons, List.map_nil]
      exact List.Chain.cons (by decide) List.Chain.nil
    have h2 : (⟨"a", 1⟩ : Obj).key ≤ ([(⟨"b", 2⟩ : Obj)].map Obj.key).getLastD "" := by
      decide
    exact ⟨h1, h2, (listAll_ordering_validation.1 [⟨"b", 2⟩] "" ⟨"a", 1⟩ [] h1 h2).1⟩
  · have h3 : ListAll ⟨.error .notSupported, [.ok [⟨"b", 2⟩, ⟨"a", 1⟩]]⟩ "" =
        .run ⟨[some ⟨"b", 2⟩, none], 0, 0, false⟩ := rfl
    exact ⟨h3, (listAll_ordering_validation.2 _ "" _ h3).1⟩

/-- Claim C6: (1) a first page request failing with an error other than
not-supported is surfaced and no sequence is produced; (2) failures of
subsequent page requests are retried until a success, with no retry ceiling —
for every number `k` of consecutive failures the request loop reaches the
following success after exactly `k` sleeps; (3) each sleep is the fixed
100 ms delay, with no backoff growth; (4) such errors are never surfaced:
the emitted sequence only depends on the successful responses. -/
theorem listAll_error_policy :
    (∀ (e : Err) (tl : List (Except Err (List Obj))) (m : String),
      e ≠ Err.notSupported →
      ListAll ⟨.error .notSupported, .error e :: tl⟩ m = .err e) ∧
    (∀ (k : Nat) (e : Err) (p : List Obj) (rest : List (Except Err (List Obj))),
      retryList (List.replicate k (.error e) ++ .ok p :: rest) = some (p, rest, k)) ∧
    retryDelayMs = 100 ∧
    (∀ (script : List (Except Err (List Obj))) (objs : List Obj) (lk : String)
        (f : Bool),
      (listLoop objs lk f script).out =
        (listLoop objs lk f (script.filter isOkResp)).out) := by
  refine ⟨?_, retryList_replicate_error, rfl, listLoop_filter⟩
  intro e tl m he
  cases e with
  | notSupported => exact absurd rfl he
  | other msg => rfl

theorem listAll_error_policy_witness :
    (Err.other "boom" ≠ Err.notSupported ∧
      ListAll ⟨.error .notSupported, [.error (.other "boom"), .ok []]⟩ "" =
        .err (.other "boom")) ∧
    retryList (List.replicate 2 (.error (.other "x")) ++
        .ok [(⟨"a", 1⟩ : Obj)] :: [.ok []]) = some ([⟨"a", 1⟩], [.ok []], 2) ∧
    (listLoop [(⟨"a", 1⟩ : Obj)] "" true
        [.error (.other "x"), .ok [⟨"b", 2⟩], .ok []]).out =
      (listLoop [(⟨"a", 1⟩ : Obj)] "" true
        ([.error (.other "x"), .ok [⟨"b", 2⟩], .ok []].filter isOkResp)).out := by
  refine ⟨⟨by decide, ?_⟩, ?_, ?_⟩
  · exact listAll_error_policy.1 (.other "boom") [.ok []] "" (by decide)
  · exact listAll_error_policy.2.1 2 (.other "x") [⟨"a", 1⟩] [.ok []]
  · exact listAll_error_policy.2.2.2 [.error (.other "x"), .ok [⟨"b", 2⟩], .ok []]
      [⟨"a", 1⟩] "" true

/- Mathlib's `List.decidableChain` is built with `▸` and does not reduce in
the kernel; these two instances decide the same propositions structurally. -/

instance (priority := 2000) decChainFast {α : Type} {R : α → α → Prop}
    [DecidableRel R] : ∀ (a : α) (l : List α), Decidable (List.Chain R a l)
  | _, [] => isTrue List.Chain.nil
  | a, b :: l =>
    match inferInstanceAs (Decidable (R a b)), decChainFast b l with
    | isTrue h1, isTrue h2 => isTrue (List.Chain.cons h1 h2)
    | isFalse h1, _ => isFalse (fun hc => h1 (List.chain_cons.mp hc).1)
    | isTrue _, isFalse h2 => isFalse (fun hc => h2 (List.chain_cons.mp hc).2)

instance (priority := 2000) decChainFast' {α : Type} {R : α → α → Prop}
    [DecidableRel R] : ∀ (l : List α), Decidable (List.Chain' R l)
  | [] => isTrue trivial
  | a :: l => inferInstanceAs (Decidable (List.Chain R a l))

/-- Claim C1: for channels that are each strictly increasing by key,
sentinel-free and finite, the merged output of the sharded facade's `ListAll`
is exactly the multiset union of the channels' objects (a permutation of
their concatenation), emitted in ascending key order; an empty channel
contributes nothing (it is simply absent from the union) and, the merge being
a total function, blocks nothing. -/
theorem sharded_listAll_kway_merge (chans : List (List (Option Obj)))
    (h : ∀ ch ∈ chans, WellFormedChan ch) :
    (shardedListAll chans).Perm (chans.flatMap chanObjs) ∧
    List.Sorted (· ≤ ·) ((shardedListAll chans).map Obj.key) := by
  have hsome : ∀ ch ∈ chans, ∀ x ∈ ch, x ≠ none := fun ch hc => (h ch hc).1
  have hent := initHeads_ent chans h
  have hflat := initHeads_flat chans hsome
  constructor
  · have hsome2 : ∀ e ∈ initHeads chans, ∀ x ∈ e.2, x ≠ none :=
      fun e he x hx => (hent e he).1 x hx
    have hperm := mergeRun_perm (initHeads chans) hsome2
    show (mergeRun (initHeads chans)).Perm _
    rw [← hflat]
    exact hperm
  · exact mergeRun_sorted (initHeads chans) hent

theorem sharded_listAll_kway_merge_witness :
    (∀ ch ∈ [[some (⟨"k1", 1⟩ : Obj), some ⟨"k4", 4⟩, some ⟨"k7", 7⟩],
        [some ⟨"k2", 2⟩, some ⟨"k5", 5⟩], [],
        [some ⟨"k3", 3⟩, some ⟨"k6", 6⟩, some ⟨"k8", 8⟩]], WellFormedChan ch) ∧
    (shardedListAll [[some (⟨"k1", 1⟩ : Obj), some ⟨"k4", 4⟩, some ⟨"k7", 7⟩],
        [some ⟨"k2", 2⟩, some ⟨"k5", 5⟩], [],
        [some ⟨"k3", 3⟩, some ⟨"k6", 6⟩, some ⟨"k8", 8⟩]]).Perm
      ([[some (⟨"k1", 1⟩ : Obj), some ⟨"k4", 4⟩, some ⟨"k7", 7⟩],
        [some ⟨"k2", 2⟩, some ⟨"k5", 5⟩], [],
        [some ⟨"k3", 3⟩, some ⟨"k6", 6⟩, some ⟨"k8", 8⟩]].flatMap chanObjs) ∧
    List.Sorted (· ≤ ·)
      ((shardedListAll [[some (⟨"k1", 1⟩ : Obj), some ⟨"k4", 4⟩, some ⟨"k7", 7⟩],
        [some ⟨"k2", 2⟩, some ⟨"k5", 5⟩], [],
        [some ⟨"k3", 3⟩, some ⟨"k6", 6⟩, some ⟨"k8", 8⟩]]).map Obj.key) := by
  have h : ∀ ch ∈ [[some (⟨"k1", 1⟩ : Obj), some ⟨"k4", 4⟩, some ⟨"k7", 7⟩],
      [some ⟨"k2", 2⟩, some ⟨"k5", 5⟩], [],
      [some ⟨"k3", 3⟩, some ⟨"k6", 6⟩, some ⟨"k8", 8⟩]], WellFormedChan ch := by
    decide
  have hc := sharded_listAll_kway_merge _ h
  exact ⟨h, hc.1, hc.2⟩

/-- Claim C3 (refuted by the code; demonstration): shard 0's backend returns
the out-of-order page `[b, a]`, so its driver emits `b` and then the `nil`
ordering-error sentinel; shard 1 lists `[c]` cleanly.  The merge of
`(*sharded).ListAll` receives the sentinel, treats it exactly like a closed
channel (`if o != nil`), retires the shard silently, and delivers the merged
output `[b, c]` with a normal close — the consumer gets a truncated result
and no ordering error ever reaches it. -/
theorem sharded_listAll_swallows_order_error :
    ListAll ⟨.error .notSupported, [.ok [⟨"b", 2⟩, ⟨"a", 1⟩]]⟩ "" =
      .run ⟨[some ⟨"b", 2⟩, none], 0, 0, false⟩ ∧
    ListAll ⟨.error .notSupported, [.ok [⟨"c", 3⟩], .ok []]⟩ "" =
      .run ⟨[some ⟨"c", 3⟩], 1, 0, false⟩ ∧
    shardedListAll [[some ⟨"b", 2⟩, none], [some ⟨"c", 3⟩]] =
      [⟨"b", 2⟩, ⟨"c", 3⟩] :=
  ⟨rfl, rfl, rfl⟩

/-- Claim C7: calling `NewSharded` with an endpoint template that does not
reference the shard index — a template without any `'%'`, on which Go's
`Sprintf` leaves the argument unconsumed and appends `"%!(EXTRA int=0)"` at
index 0, so the substitution fails — returns an error, with no store
created: the result does not depend on the store-creation function at all.
On success exactly one store is created per index in `[0, shards)`, each
from the template with that index substituted — the conclusion exhibits each
created endpoint as the template's text around the verb with the decimal of
the index in its place.  The success part quantifies over the templates
whose single `'%'` forms one `%d` verb, the fragment on which `sprintfInt`
is faithful to Go's `fmt.Sprintf`. -/
theorem newSharded_endpoint_validation :
    (∀ (S : Type) (create create2 : String → Except Err S) (endpoint : String)
        (n : Nat),
      0 < n → '%' ∉ endpoint.data →
      NewSharded create endpoint n =
        .error (.other ("can not generate different endpoint using " ++ endpoint)) ∧
      NewSharded create endpoint n = NewSharded create2 endpoint n) ∧
    (∀ (S : Type) (create : String → Except Err S) (endpoint : String)
        (f : Nat → S) (n : Nat) (a b : List Char),
      endpoint.data = a ++ '%' :: 'd' :: b → '%' ∉ a → '%' ∉ b →
      (∀ i, i < n → hasSuffix (sprintfInt endpoint i) extraIntZero = false) →
      (∀ i, i < n → create (sprintfInt endpoint i) = .ok (f i)) →
      (∀ i, sprintfInt endpoint i = String.mk (a ++ (Nat.repr i).data ++ b)) ∧
      NewSharded create endpoint n = .ok ((List.range n).map f)) := by
  constructor
  · intro S create create2 endpoint n hn hpc
    have hmark := sprintf_noVerb_ends_marker endpoint
      (insertIndex_none_of_no_percent 0 endpoint.data hpc)
    obtain ⟨m, rfl⟩ : ∃ m, n = m + 1 := ⟨n - 1, by omega⟩
    have herr : ∀ (cr : String → Except Err S),
        NewSharded cr endpoint (m + 1) =
          .error (.other ("can not generate different endpoint using " ++ endpoint)) := by
      intro cr
      unfold NewSharded
      rw [List.range_succ_eq_map]
      simp only [newShardedLoop]
      rw [if_pos (by simp [hmark])]
    exact ⟨herr create, (herr create).trans (herr create2).symm⟩
  · intro S create endpoint f n a b hshape ha hb hsuf hok
    constructor
    · intro i
      unfold sprintfInt
      rw [hshape, insertIndex_single_verb i a b ha]
    · unfold NewSharded
      exact newShardedLoop_ok create endpoint f (List.range n)
        (fun i hi => hsuf i (List.mem_range.mp hi))
        (fun i hi => hok i (List.mem_range.mp hi))

theorem newSharded_endpoint_validation_witness :
    (0 < 3 ∧ '%' ∉ ("shard".data) ∧
      NewSharded (fun ep => (.ok ep : Except Err String)) "shard" 3 =
        .error (.other ("can not generate different endpoint using " ++ "shard"))) ∧
    (("h%d".data = ['h'] ++ '%' :: 'd' :: [] ∧ '%' ∉ (['h'] : List Char) ∧
        '%' ∉ ([] : List Char)) ∧
      (∀ i, i < 3 → hasSuffix (sprintfInt "h%d" i) extraIntZero = false) ∧
      (∀ i, sprintfInt "h%d" i = String.mk (['h'] ++ (Nat.repr i).data ++ [])) ∧
      NewSharded (fun ep => (.ok ep : Except Err String)) "h%d" 3 =
        .ok ((List.range 3).map (fun i => "h" ++ Nat.repr i))) := by
  constructor
  · refine ⟨by decide, by decide, ?_⟩
    exact (newSharded_endpoint_validation.1 String _
      (fun ep => (.ok ep : Except Err String)) "shard" 3 (by decide) (by decide)).1
  · have hsuf : ∀ i, i < 3 → hasSuffix (sprintfInt "h%d" i) extraIntZero = false := by
      decide
    have hok : ∀ i, i < 3 →
        (fun ep => (.ok ep : Except Err String)) (sprintfInt "h%d" i) =
          .ok ("h" ++ Nat.repr i) := by
      intro i hi
      interval_cases i <;> rfl
    have hc := newSharded_endpoint_validation.2 String _ "h%d"
      (fun i => "h" ++ Nat.repr i) 3 ['h'] [] (by decide) (by decide) (by decide)
      hsuf hok
    exact ⟨⟨by decide, by decide, by decide⟩, hsuf, hc.1, hc.2⟩
